import Mathlib

/-!
Verification of the MACD indicator engine in `src/main.rs`.

The Rust source computes exponential moving averages (`calculate_ema`), the
MACD / signal line pair (`calculate_macd`) and a buy/sell crossover decision
(`check_macd_signal`) over `f64` prices, and the main loop keeps a bounded
per-symbol price history.  Prices are modelled here as exact rationals (`ℚ`);
every property stated below is structural or order-theoretic and does not
depend on rounding.  A Rust panic (out-of-bounds indexing on a `Vec`) is
modelled as `none`; a normal return value `v` is modelled as `some v`.
-/

namespace MacdBot

/-- Outcome of `check_macd_signal`: the strings `"buy"` / `"sell"` in the source. -/
inductive Signal : Type
  | buy
  | sell
  deriving DecidableEq

/-- `let multiplier = 2.0 / (period as f64 + 1.0)` in `calculate_ema`. -/
def multiplier (period : ℕ) : ℚ := 2 / ((period : ℚ) + 1)

/-- The loop of `calculate_ema`: for each remaining price, push
`(price - prev_ema) * multiplier + prev_ema` where `prev_ema` is the last
value pushed. -/
def emaScan (m : ℚ) (prev : ℚ) : List ℚ → List ℚ
  | [] => []
  | p :: ps => ((p - prev) * m + prev) :: emaScan m ((p - prev) * m + prev) ps

/-- `calculate_ema` from the source: seeds with `prices[0]` and then applies the
EMA recurrence.  `ema.push(prices[0])` panics when `prices` is empty, which is
modelled by `none`. -/
def calculate_ema (prices : List ℚ) (period : ℕ) : Option (List ℚ) :=
  match prices with
  | [] => none
  | p :: ps => some (p :: emaScan (multiplier period) p ps)

/-- `calculate_macd` from the source: fast EMA (period 12), slow EMA
(period 26), the MACD line is their pointwise difference (`zip` + `map`), and
the signal line is the EMA (period 9) of the MACD line. -/
def calculate_macd (prices : List ℚ) : Option (List ℚ × List ℚ) :=
  match calculate_ema prices 12, calculate_ema prices 26 with
  | some ema_12, some ema_26 =>
    let macd_line := (ema_12.zip ema_26).map (fun e => e.1 - e.2)
    match calculate_ema macd_line 9 with
    | some signal_line => some (macd_line, signal_line)
    | none => none
  | _, _ => none

/-- `check_macd_signal` from the source.  It indexes `len - 1` and `len - 2` of
both slices with no length check, so any input list of length `< 2` aborts the
process (usize underflow / out-of-bounds), modelled as `none`.  Lengths are
never compared to each other. -/
def check_macd_signal (macd_line signal_line : List ℚ) : Option (Option Signal) :=
  if macd_line.length < 2 ∨ signal_line.length < 2 then
    none
  else
    let macd_last := macd_line.getD (macd_line.length - 1) 0
    let macd_prev := macd_line.getD (macd_line.length - 2) 0
    let signal_last := signal_line.getD (signal_line.length - 1) 0
    let signal_prev := signal_line.getD (signal_line.length - 2) 0
    some (if macd_prev ≤ signal_prev ∧ macd_last > signal_last then some Signal.buy
          else if macd_prev ≥ signal_prev ∧ macd_last < signal_last then some Signal.sell
          else none)

/-- History capacity from the main loop: `if prices.len() > 100 { prices.remove(0) }`. -/
def capacity : ℕ := 100

/-- One iteration of the per-coin body of the main loop (lines 166–193):
append the price, compute MACD when the history holds at least 12 prices,
emit the crossover signal when it holds at least 26, then evict the oldest
price when the length exceeds `capacity`.  Returns the updated history and
the emitted event (if any). -/
def onSample (history : List ℚ) (price : ℚ) : List ℚ × Option Signal :=
  let prices := history ++ [price]
  let event : Option Signal :=
    if 12 ≤ prices.length then
      match calculate_macd prices with
      | some (macd, signal) =>
        if 26 ≤ prices.length then
          match check_macd_signal macd signal with
          | some action => action
          | none => none
        else none
      | none => none
    else none
  let final := if capacity < prices.length then prices.tail else prices
  (final, event)

/-- Feed a sequence of samples one at a time through `onSample`, starting from
the given history, keeping only the final history. -/
def feedAll (history : List ℚ) (samples : List ℚ) : List ℚ :=
  samples.foldl (fun h p => (onSample h p).1) history

/-- The `price_history` map of the main loop, keyed by coin symbol;
`entry(..).or_insert_with(Vec::new)` means an absent symbol behaves as the
empty history. -/
def onSampleMap (hist : String → List ℚ) (symbol : String) (price : ℚ) :
    (String → List ℚ) × Option Signal :=
  let r := onSample (hist symbol) price
  (fun s => if s = symbol then r.1 else hist s, r.2)

/-! ### Basic lemmas about the EMA recurrence -/

lemma emaScan_length (m : ℚ) : ∀ (ps : List ℚ) (prev : ℚ),
    (emaScan m prev ps).length = ps.length
  | [], _ => rfl
  | p :: ps, prev => by
    simp only [emaScan, List.length_cons, emaScan_length m ps]

lemma emaScan_getD (m : ℚ) :
    ∀ (ps : List ℚ) (prev : ℚ) (i : ℕ), i < ps.length →
      (prev :: emaScan m prev ps).getD (i + 1) 0 =
        (ps.getD i 0 - (prev :: emaScan m prev ps).getD i 0) * m +
          (prev :: emaScan m prev ps).getD i 0
  | [], _, i, h => absurd h (by simp)
  | p :: ps, prev, 0, _ => by simp [emaScan]
  | p :: ps, prev, i + 1, h => by
    have ih := emaScan_getD m ps ((p - prev) * m + prev) i (by simpa using h)
    simpa [emaScan] using ih

/-- C1: for every non-empty price sequence and period ≥ 1, `calculate_ema`
returns a sequence of the same length, seeded with `prices[0]`, satisfying
`ema[i] = (prices[i] - ema[i-1]) * (2 / (period + 1)) + ema[i-1]` at every
later index. -/
theorem C1_ema_contract (prices : List ℚ) (period : ℕ)
    (hne : prices ≠ []) (hp : 1 ≤ period) :
    ∃ ema, calculate_ema prices period = some ema ∧
      ema.length = prices.length ∧
      ema.getD 0 0 = prices.getD 0 0 ∧
      ∀ i, i + 1 < prices.length →
        ema.getD (i + 1) 0 =
          (prices.getD (i + 1) 0 - ema.getD i 0) * (2 / ((period : ℚ) + 1)) +
            ema.getD i 0 := by
  obtain ⟨p, ps, rfl⟩ := List.exists_cons_of_ne_nil hne
  refine ⟨p :: emaScan (multiplier period) p ps, rfl, by simp [emaScan_length], by simp, ?_⟩
  intro i hi
  have h := emaScan_getD (multiplier period) ps p i (by simpa using hi)
  simpa [multiplier] using h

theorem C1_ema_contract_witness :
    ∃ ema, calculate_ema [(1 : ℚ), 2] 2 = some ema ∧ ema.length = 2 := by
  obtain ⟨ema, h1, h2, -, -⟩ := C1_ema_contract [(1 : ℚ), 2] 2 (by simp) (by norm_num)
  exact ⟨ema, h1, h2⟩

/-! ### The MACD line as a pointwise difference -/

lemma length_zip_sub (a b : List ℚ) :
    ((a.zip b).map (fun e => e.1 - e.2)).length = min a.length b.length := by
  simp [List.length_zip]

lemma getD_zip_sub (a b : List ℚ) (i : ℕ) (ha : i < a.length) (hb : i < b.length) :
    ((a.zip b).map (fun e => e.1 - e.2)).getD i 0 = a.getD i 0 - b.getD i 0 := by
  have hm : i < ((a.zip b).map (fun e => e.1 - e.2)).length := by
    rw [length_zip_sub]; omega
  rw [List.getD_eq_getElem _ _ hm, List.getD_eq_getElem _ _ ha, List.getD_eq_getElem _ _ hb]
  simp [List.getElem_zip]

/-- C2: for every non-empty price sequence, `calculate_macd` returns the pair
of the pointwise difference of the fast (12) and slow (26) EMAs and the EMA of
that difference with period 9, both of the input's length. -/
theorem C2_macd_contract (prices : List ℚ) (hne : prices ≠ []) :
    ∃ macd_line signal_line ema_12 ema_26,
      calculate_macd prices = some (macd_line, signal_line) ∧
      calculate_ema prices 12 = some ema_12 ∧
      calculate_ema prices 26 = some ema_26 ∧
      macd_line.length = prices.length ∧
      signal_line.length = prices.length ∧
      (∀ i, i < prices.length →
        macd_line.getD i 0 = ema_12.getD i 0 - ema_26.getD i 0) ∧
      calculate_ema macd_line 9 = some signal_line := by
  obtain ⟨p, ps, rfl⟩ := List.exists_cons_of_ne_nil hne
  have hmacd :
      calculate_macd (p :: ps) =
        some (((p :: emaScan (multiplier 12) p ps).zip (p :: emaScan (multiplier 26) p ps)).map
            (fun e => e.1 - e.2),
          (p - p) :: emaScan (multiplier 9) (p - p)
            (((emaScan (multiplier 12) p ps).zip (emaScan (multiplier 26) p ps)).map
              (fun e => e.1 - e.2))) := by
    rfl
  have hsig :
      calculate_ema (((p :: emaScan (multiplier 12) p ps).zip
          (p :: emaScan (multiplier 26) p ps)).map (fun e => e.1 - e.2)) 9 =
        some ((p - p) :: emaScan (multiplier 9) (p - p)
          (((emaScan (multiplier 12) p ps).zip (emaScan (multiplier 26) p ps)).map
            (fun e => e.1 - e.2))) := by
    rfl
  refine ⟨_, _, _, _, hmacd, rfl, rfl, ?_, ?_, ?_, hsig⟩
  · simp [length_zip_sub, emaScan_length]
  · simp [emaScan_length, length_zip_sub]
  · intro i hi
    exact getD_zip_sub _ _ i (by simpa [emaScan_length] using hi)
      (by simpa [emaScan_length] using hi)

theorem C2_macd_contract_witness :
    ∃ macd_line signal_line ema_12 ema_26,
      calculate_macd [(1 : ℚ), 2] = some (macd_line, signal_line) ∧
      calculate_ema [(1 : ℚ), 2] 12 = some ema_12 ∧
      calculate_ema [(1 : ℚ), 2] 26 = some ema_26 ∧
      macd_line.length = 2 ∧ signal_line.length = 2 := by
  obtain ⟨m, s, e12, e26, h1, h2, h3, h4, h5, -, -⟩ := C2_macd_contract [(1 : ℚ), 2] (by simp)
  exact ⟨m, s, e12, e26, h1, h2, h3, h4, h5⟩

/-! ### The crossover decision -/

/-- C3: on sequences of equal length `n ≥ 2` the detector returns `Buy`
exactly when the previous MACD value is at most the previous signal value and
the last MACD value strictly exceeds the last signal value, `Sell` exactly in
the mirrored situation, and `None` otherwise; the previous point is compared
non-strictly, the current one strictly. -/
theorem C3_crossover (macd_line signal_line : List ℚ) (n : ℕ)
    (hm : macd_line.length = n) (hs : signal_line.length = n) (h2 : 2 ≤ n) :
    ∃ r : Option Signal,
      check_macd_signal macd_line signal_line = some r ∧
      (r = some Signal.buy ↔
        macd_line.getD (n - 2) 0 ≤ signal_line.getD (n - 2) 0 ∧
          signal_line.getD (n - 1) 0 < macd_line.getD (n - 1) 0) ∧
      (r = some Signal.sell ↔
        signal_line.getD (n - 2) 0 ≤ macd_line.getD (n - 2) 0 ∧
          macd_line.getD (n - 1) 0 < signal_line.getD (n - 1) 0) ∧
      (r = none ↔
        ¬(macd_line.getD (n - 2) 0 ≤ signal_line.getD (n - 2) 0 ∧
            signal_line.getD (n - 1) 0 < macd_line.getD (n - 1) 0) ∧
          ¬(signal_line.getD (n - 2) 0 ≤ macd_line.getD (n - 2) 0 ∧
              macd_line.getD (n - 1) 0 < signal_line.getD (n - 1) 0)) := by
  simp only [check_macd_signal, hm, hs]
  rw [if_neg (by omega : ¬(n < 2 ∨ n < 2))]
  refine ⟨_, rfl, ?_, ?_, ?_⟩ <;> split_ifs with h1 h2'
  · exact iff_of_true rfl ⟨h1.1, h1.2⟩
  · exact iff_of_false (by simp) fun hA => (lt_asymm h2'.2) hA.2
  · exact iff_of_false (by simp) fun hA => h1 ⟨hA.1, hA.2⟩
  · exact iff_of_false (by simp) fun hB => (lt_asymm h1.2) hB.2
  · exact iff_of_true rfl ⟨h2'.1, h2'.2⟩
  · exact iff_of_false (by simp) fun hB => h2' ⟨hB.1, hB.2⟩
  · exact iff_of_false (by simp) fun h => h.1 ⟨h1.1, h1.2⟩
  · exact iff_of_false (by simp) fun h => h.2 ⟨h2'.1, h2'.2⟩
  · exact iff_of_true rfl ⟨fun hA => h1 ⟨hA.1, hA.2⟩, fun hB => h2' ⟨hB.1, hB.2⟩⟩

theorem C3_crossover_witness :
    check_macd_signal [(-1 : ℚ), 1/2] [0, 0] = some (some Signal.buy) := by
  obtain ⟨r, hr, hbuy, -, -⟩ :=
    C3_crossover [(-1 : ℚ), 1/2] [0, 0] 2 (by simp) (by simp) (by norm_num)
  rw [hr, hbuy.mpr (by norm_num)]

/-! ### Error handling of the source (panics, not error values) -/

/-- C4: the source's `calculate_ema` aborts (out-of-bounds on `prices[0]`,
modelled `none`) on an empty input instead of returning an `InvalidInput`
error value, and silently computes a result for `period = 0`. -/
theorem C4_ema_panics_on_empty :
    calculate_ema ([] : List ℚ) 12 = none ∧
    calculate_ema [(1 : ℚ), 2] 0 = some [1, 3] := by
  refine ⟨rfl, ?_⟩
  norm_num [calculate_ema, emaScan, multiplier]

/-- C5: the source's `check_macd_signal` aborts (index underflow /
out-of-bounds, modelled `none`) on sequences shorter than 2 instead of
returning an `InvalidInput` error value, and silently accepts sequences of
different lengths. -/
theorem C5_detector_unchecked_inputs :
    check_macd_signal [(1 : ℚ)] [1, 2] = none ∧
    check_macd_signal [(0 : ℚ), 1] [0, 0, 0] = some (some Signal.buy) := by
  constructor <;> norm_num [check_macd_signal]

/-! ### The bounded price history of the main loop -/

lemma onSample_fst (history : List ℚ) (price : ℚ) :
    (onSample history price).1 =
      if capacity < (history ++ [price]).length then (history ++ [price]).tail
      else history ++ [price] := rfl

lemma onSample_fst_of_lt (history : List ℚ) (price : ℚ) (h : history.length < capacity) :
    (onSample history price).1 = history ++ [price] := by
  rw [onSample_fst, if_neg]
  simp only [List.length_append, List.length_cons, List.length_nil, not_lt]
  omega

lemma onSample_fst_of_full (history : List ℚ) (price : ℚ) (h : history.length = capacity) :
    (onSample history price).1 = history.tail ++ [price] := by
  rw [onSample_fst, if_pos (by simp; omega)]
  rcases history with - | ⟨a, t⟩
  · simp [capacity] at h
  · simp

lemma feedAll_of_le :
    ∀ (samples history : List ℚ), history.length + samples.length ≤ capacity →
      feedAll history samples = history ++ samples
  | [], history, _ => by simp [feedAll]
  | p :: ps, history, h => by
    have h1 : history.length < capacity := by
      simp only [List.length_cons] at h; omega
    have ih := feedAll_of_le ps (history ++ [p]) (by simp at h ⊢; omega)
    simp only [feedAll, List.foldl_cons] at ih ⊢
    rw [onSample_fst_of_lt _ _ h1, ih]
    simp

/-- C6: the history length never exceeds the capacity 100 after a step; a step
from a full history evicts exactly the oldest element; feeding 101 samples
into an empty history leaves the last 100 of them (the very first sample is
evicted). -/
theorem C6_history_capacity (history : List ℚ) (price : ℚ) (samples : List ℚ)
    (hcap : history.length ≤ capacity) (hlen : samples.length = capacity + 1) :
    ((onSample history price).1).length ≤ capacity ∧
    (history.length = capacity → (onSample history price).1 = history.tail ++ [price]) ∧
    (feedAll [] samples).length = capacity ∧
    feedAll [] samples = samples.tail := by
  have hbound : ((onSample history price).1).length ≤ capacity := by
    rw [onSample_fst]
    split_ifs with hgt
    · simp only [List.length_tail, List.length_append, List.length_cons, List.length_nil]
      omega
    · simp only [not_lt] at hgt
      exact hgt
  have hne : samples ≠ [] := by
    intro h
    rw [h] at hlen
    simp [capacity] at hlen
  obtain ⟨a, b, hab⟩ : ∃ a b, samples = a ++ [b] :=
    ⟨samples.dropLast, samples.getLast hne, (List.dropLast_append_getLast hne).symm⟩
  have ha : a.length = capacity := by
    have h := congrArg List.length hab
    simp only [List.length_append, List.length_cons, List.length_nil] at h
    omega
  have hfeed_a : feedAll [] a = a := by
    simpa using feedAll_of_le a [] (by simp [ha])
  have hmain : feedAll [] samples = a.tail ++ [b] := by
    rw [hab]
    show List.foldl (fun h p => (onSample h p).1) [] (a ++ [b]) = a.tail ++ [b]
    rw [List.foldl_append]
    show (onSample (feedAll [] a) b).1 = a.tail ++ [b]
    rw [hfeed_a]
    exact onSample_fst_of_full a b ha
  have htail : samples.tail = a.tail ++ [b] := by
    rw [hab]
    rcases a with - | ⟨x, t⟩
    · simp [capacity] at ha
    · simp
  refine ⟨hbound, fun hfull => onSample_fst_of_full _ _ hfull, ?_, hmain.trans htail.symm⟩
  rw [hmain]
  simp only [List.length_append, List.length_tail, List.length_cons, List.length_nil, ha]
  simp [capacity]

theorem C6_history_capacity_witness :
    ((onSample (List.replicate 100 (0 : ℚ)) 5).1).length ≤ capacity ∧
    feedAll [] (List.replicate 101 (1 : ℚ)) = (List.replicate 101 (1 : ℚ)).tail := by
  obtain ⟨h1, -, -, h4⟩ :=
    C6_history_capacity (List.replicate 100 (0 : ℚ)) 5 (List.replicate 101 (1 : ℚ))
      (by simp [capacity]) (by simp [capacity])
  exact ⟨h1, h4⟩

/-! ### The evaluation gate of the main loop -/

/-- C7 (amended): the main loop checks the crossover only once the history
holds at least 26 prices (`prices.len() >= 26` in the source, not
`slow + signalPeriod = 35`): any `onSample` call on a history of fewer than
25 prices returns no event. -/
theorem C7_no_event_below_26 (history : List ℚ) (price : ℚ)
    (h : history.length + 1 < 26) :
    (onSample history price).2 = none := by
  have hlen : ¬26 ≤ (history ++ [price]).length := by
    simp only [List.length_append, List.length_cons, List.length_nil, not_le]
    omega
  simp only [onSample]
  rcases hmacd : calculate_macd (history ++ [price]) with - | ⟨macd, signal⟩ <;>
    by_cases h12 : 12 ≤ (history ++ [price]).length <;>
      simp [hmacd, h12, hlen] <;>
        omega

theorem C7_no_event_below_26_witness : (onSample [] (0 : ℚ)).2 = none :=
  C7_no_event_below_26 [] 0 (by norm_num)

/-- C7 counterexample: a fresh instrument fed 25 identical prices and then a
higher 26th price fires a `Buy` on the 26th call, well before the claimed
35-sample threshold. -/
theorem C7_event_at_sample_26 :
    feedAll [] [1, 1, 1, 1, 1, 1, 1, 1, 1, 1, 1, 1, 1, 1, 1, 1, 1, 1, 1, 1, 1, 1, 1, 1, 1] =
      ([1, 1, 1, 1, 1, 1, 1, 1, 1, 1, 1, 1, 1, 1, 1, 1, 1, 1, 1, 1, 1, 1, 1, 1, 1] : List ℚ) ∧
    (onSample [1, 1, 1, 1, 1, 1, 1, 1, 1, 1, 1, 1, 1, 1, 1, 1, 1, 1, 1, 1, 1, 1, 1, 1, 1] 2).2 =
      some Signal.buy ∧
    ([1, 1, 1, 1, 1, 1, 1, 1, 1, 1, 1, 1, 1, 1, 1, 1, 1, 1, 1, 1, 1, 1, 1, 1, 1] :
        List ℚ).length + 1 < 35 := by
  refine ⟨?_, ?_, by norm_num⟩
  · simpa using
      feedAll_of_le [1, 1, 1, 1, 1, 1, 1, 1, 1, 1, 1, 1, 1, 1, 1, 1, 1, 1, 1, 1, 1, 1, 1, 1, 1]
        [] (by norm_num [capacity])
  · norm_num [onSample, calculate_macd, calculate_ema, emaScan, multiplier, check_macd_signal,
      capacity]

/-! ### Determinism and the per-symbol frame property -/

/-- C8: the indicator pipeline is a pure function of its input price list:
two runs on the same input produce identical MACD and signal values. -/
theorem C8_deterministic (prices1 prices2 : List ℚ) (h : prices1 = prices2) :
    calculate_macd prices1 = calculate_macd prices2 ∧
    calculate_ema prices1 12 = calculate_ema prices2 12 ∧
    calculate_ema prices1 26 = calculate_ema prices2 26 := by
  subst h
  exact ⟨rfl, rfl, rfl⟩

theorem C8_deterministic_witness :
    calculate_macd [(1 : ℚ), 2, 3] = calculate_macd [(1 : ℚ), 2, 3] :=
  (C8_deterministic [(1 : ℚ), 2, 3] [(1 : ℚ), 2, 3] rfl).1

/-- C9: processing a sample for one symbol leaves every other symbol's
history untouched. -/
theorem C9_frame (hist : String → List ℚ) (x y : String) (price : ℚ)
    (hxy : y ≠ x) :
    ((onSampleMap hist x price).1) y = hist y := by
  simp [onSampleMap, hxy]

theorem C9_frame_witness :
    ((onSampleMap (fun _ => []) "X" 1).1) "Y" = [] :=
  C9_frame (fun _ => []) "X" "Y" 1 (by decide)

/-! ### The seeding tie at the first bar -/

lemma check_macd_signal_two (a0 a1 b0 b1 : ℚ) :
    check_macd_signal [a0, a1] [b0, b1] =
      some (if a0 ≤ b0 ∧ a1 > b1 then some Signal.buy
            else if a0 ≥ b0 ∧ a1 < b1 then some Signal.sell
            else none) := by
  norm_num [check_macd_signal]

/-- C10: both EMAs are seeded with `prices[0]`, so the MACD line starts at 0
and the signal line (seeded with `macdLine[0]`) starts at 0 as well; over a
length-2 history the previous pair is therefore a 0/0 tie and a `Sell` can
only come from the current bar's strict comparison, never from the first
bar. -/
theorem C10_seed_tie (prices : List ℚ) (hne : prices ≠ []) :
    ∃ macd_line signal_line,
      calculate_macd prices = some (macd_line, signal_line) ∧
      macd_line.getD 0 0 = 0 ∧
      signal_line.getD 0 0 = 0 ∧
      (prices.length = 2 →
        macd_line.getD 0 0 = signal_line.getD 0 0 ∧
        (check_macd_signal macd_line signal_line = some (some Signal.sell) ↔
          macd_line.getD 1 0 < signal_line.getD 1 0)) := by
  obtain ⟨p, ps, rfl⟩ := List.exists_cons_of_ne_nil hne
  have hmacd :
      calculate_macd (p :: ps) =
        some ((p - p) :: ((emaScan (multiplier 12) p ps).zip
            (emaScan (multiplier 26) p ps)).map (fun e => e.1 - e.2),
          (p - p) :: emaScan (multiplier 9) (p - p)
            (((emaScan (multiplier 12) p ps).zip (emaScan (multiplier 26) p ps)).map
              (fun e => e.1 - e.2))) := by
    rfl
  refine ⟨_, _, hmacd, by simp, by simp, ?_⟩
  intro h2
  obtain ⟨q, rfl⟩ : ∃ q, ps = [q] := by
    rcases ps with - | ⟨q, - | ⟨r, t⟩⟩
    · simp at h2
    · exact ⟨q, rfl⟩
    · simp at h2
  constructor
  · simp
  · simp only [emaScan, List.zip_cons_cons, List.zip_nil_right, List.map_cons, List.map_nil,
      check_macd_signal_two, sub_self, List.getD_cons_succ, List.getD_cons_zero]
    set a1 := (q - p) * multiplier 12 + p - ((q - p) * multiplier 26 + p) with ha1
    set b1 := (a1 - 0) * multiplier 9 + 0 with hb1
    rcases lt_trichotomy a1 b1 with hlt | heq | hgt
    · rw [if_neg (fun hA => (lt_asymm hlt) hA.2), if_pos ⟨le_refl 0, hlt⟩]
      exact iff_of_true rfl hlt
    · simp [heq]
    · rw [if_pos ⟨le_refl 0, hgt⟩]
      simp only [Option.some.injEq, reduceCtorEq, false_iff, not_lt]
      exact le_of_lt hgt

theorem C10_seed_tie_witness :
    ∃ macd_line signal_line,
      calculate_macd [(1 : ℚ), 0] = some (macd_line, signal_line) ∧
      macd_line.getD 0 0 = 0 ∧ signal_line.getD 0 0 = 0 := by
  obtain ⟨m, s, h1, h2, h3, -⟩ := C10_seed_tie [(1 : ℚ), 0] (by simp)
  exact ⟨m, s, h1, h2, h3⟩

end MacdBot
